import Mathlib

/-!
Shallow embedding of the go-betterfractions library (fraction.go) and proofs
about its specification. Go uint64 values are modelled as Nat with explicit
bounds, and wrap-around is written as an explicit reduction modulo 2^64 where
the source can overflow. Fallible operations return Except; the decimal
parser, which can crash on some inputs, returns a dedicated result type with
an explicit panic outcome.
-/

namespace fraction

/-- Maximum value of a Go uint64 (math.MaxUint64). -/
def MaxU64 : Nat := 2 ^ 64 - 1

/-- Fuel-based Euclidean loop mirroring gcd in the source:
while n2 is nonzero, replace the pair n1, n2 by n2, n1 % n2; return n1.
The fuel argument only makes the recursion structural; n2 + 1 steps always
suffice because n2 strictly decreases. -/
def gcdAux : Nat → Nat → Nat → Nat
  | 0, n1, _ => n1
  | fuel+1, n1, n2 => if n2 = 0 then n1 else gcdAux fuel n2 (n1 % n2)

/-- gcd from the source, on unsigned magnitudes. -/
def gcdGo (n1 n2 : Nat) : Nat := gcdAux (n2 + 1) n1 n2

theorem gcdAux_eq (fuel : Nat) : ∀ n1 n2, n2 < fuel → gcdAux fuel n1 n2 = Nat.gcd n1 n2 := by
  induction fuel with
  | zero => intro n1 n2 h; omega
  | succ f ih =>
    intro n1 n2 h
    simp only [gcdAux]
    by_cases h2 : n2 = 0
    · subst h2; simp
    · rw [if_neg h2, ih n2 (n1 % n2) (by
        have := Nat.mod_lt n1 (y := n2) (by omega); omega)]
      rw [Nat.gcd_comm n2 (n1 % n2), ← Nat.gcd_rec n2 n1, Nat.gcd_comm n2 n1]

theorem gcdGo_eq (n1 n2 : Nat) : gcdGo n1 n2 = Nat.gcd n1 n2 :=
  gcdAux_eq _ _ _ (Nat.lt_succ_self _)

/-- Fraction from the source: unsigned numerator and denominator plus a
sign flag (false means positive, true means negative). -/
structure Fraction where
  numerator : Nat
  denominator : Nat
  negative : Bool
deriving DecidableEq, Repr

/-- Error values of the library. The named constructors correspond to the
package-level error variables; msg covers the ad-hoc errors.New values and
strconvError stands for an error returned by strconv.ParseUint. -/
inductive Err where
  | divideByZero
  | invalid
  | outOfRange
  | zeroDenominator
  | strconvError
  | msg (s : String)
deriving DecidableEq, Repr

instance {ε α : Type} [DecidableEq ε] [DecidableEq α] : DecidableEq (Except ε α) :=
  fun x y =>
    match x, y with
    | .ok a, .ok b => decidable_of_iff (a = b) (by simp)
    | .error a, .error b => decidable_of_iff (a = b) (by simp)
    | .ok _, .error _ => isFalse (by simp)
    | .error _, .ok _ => isFalse (by simp)

/-- NewI from the source, at the signed instantiation of its generic integer
parameter: sign is numerator < 0, magnitude is the absolute value. -/
def NewI (numerator : Int) : Fraction :=
  ⟨numerator.natAbs, 1, decide (numerator < 0)⟩

/-- Zero() from the source. -/
def Zero : Fraction := NewI 0

/-- One() from the source. -/
def One : Fraction := NewI 1

/-- zeroValue in the source is Zero(). -/
def zeroValue : Fraction := Zero

/-- New from the source, at the signed instantiation of its generic integer
parameters. Sign law: negative exactly when exactly one operand is negative. -/
def New (numerator denominator : Int) : Except Err Fraction :=
  if denominator = 0 then .error .zeroDenominator
  else if numerator = 0 then .ok zeroValue
  else
    let sign := decide (numerator < 0) != decide (denominator < 0)
    let n := numerator.natAbs
    let d := denominator.natAbs
    let gcf := gcdGo n d
    .ok ⟨n / gcf, d / gcf, sign⟩

/-- normalize from the source: canonical zero for a zero numerator, otherwise
divide both magnitudes by their gcd. -/
def Fraction.normalize (f : Fraction) : Fraction :=
  if f.numerator = 0 then ⟨0, 1, false⟩
  else
    let g := gcdGo f.numerator f.denominator
    ⟨f.numerator / g, f.denominator / g, f.negative⟩

/-- isZero from the source. -/
def Fraction.isZero (f : Fraction) : Bool := f.numerator == 0

/-- fastAdd from the source: addition when both denominators coincide. -/
def fastAdd (f1 f2 : Fraction) : Except Err Fraction :=
  let a := f1.numerator
  let b := f2.numerator
  if f1.negative = f2.negative then
    if a > MaxU64 - b then .error .outOfRange
    else .ok (Fraction.normalize ⟨a + b, f1.denominator, f1.negative⟩)
  else
    if a ≥ b then .ok (Fraction.normalize ⟨a - b, f1.denominator, f1.negative⟩)
    else .ok (Fraction.normalize ⟨b - a, f1.denominator, f2.negative⟩)

/-- Add from the source: zero short-circuits, a fast path for equal
denominators, otherwise gcd-scaled cross addition with overflow pre-checks. -/
def Add (f1 f2 : Fraction) : Except Err Fraction :=
  if f1.isZero then .ok f2.normalize
  else if f2.isZero then .ok f1.normalize
  else if f1.denominator = f2.denominator then fastAdd f1 f2
  else
    let g := gcdGo f1.denominator f2.denominator
    let scale1 := f2.denominator / g
    let scale2 := f1.denominator / g
    if f1.numerator > MaxU64 / scale1 ∨ f2.numerator > MaxU64 / scale2 then
      .error .outOfRange
    else
      let a := f1.numerator * scale1
      let b := f2.numerator * scale2
      let den0 := f1.denominator / g
      if den0 > MaxU64 / f2.denominator then .error .outOfRange
      else
        let den := den0 * f2.denominator
        if f1.negative = f2.negative then
          if a > MaxU64 - b then .error .outOfRange
          else .ok (Fraction.normalize ⟨a + b, den, f1.negative⟩)
        else
          if a ≥ b then .ok (Fraction.normalize ⟨a - b, den, f1.negative⟩)
          else .ok (Fraction.normalize ⟨b - a, den, f2.negative⟩)

/-- Negate from the source. -/
def Negate (f1 : Fraction) : Fraction :=
  if f1.numerator = 0 then zeroValue
  else ⟨f1.numerator, f1.denominator, !f1.negative⟩

/-- Invert from the source: swap numerator and denominator, keep the sign. -/
def Invert (f1 : Fraction) : Except Err Fraction :=
  if f1.numerator = 0 then .error .zeroDenominator
  else .ok ⟨f1.denominator, f1.numerator, f1.negative⟩

/-- Subtract from the source. -/
def Subtract (f1 f2 : Fraction) : Except Err Fraction :=
  Add f1 (Negate f2)

/-- Multiply from the source: zero absorbs, otherwise cross-cancel by the two
cross gcds, pre-check both products against MaxU64, then multiply. -/
def Multiply (f1 f2 : Fraction) : Except Err Fraction :=
  if f1.numerator = 0 ∨ f2.numerator = 0 then .ok zeroValue
  else
    let g1 := gcdGo f1.numerator f2.denominator
    let g2 := gcdGo f2.numerator f1.denominator
    let n1 := f1.numerator / g1
    let d2 := f2.denominator / g1
    let n2 := f2.numerator / g2
    let d1 := f1.denominator / g2
    if n1 > MaxU64 / n2 ∨ d1 > MaxU64 / d2 then .error .outOfRange
    else .ok (Fraction.normalize ⟨n1 * n2, d1 * d2, f1.negative != f2.negative⟩)

/-- Divide from the source: invert the second operand, then multiply. -/
def Divide (f1 f2 : Fraction) : Except Err Fraction :=
  match Invert f2 with
  | .error e => .error e
  | .ok f2i => Multiply f1 f2i

/-- Whitespace test used by strings.TrimSpace (unicode.IsSpace), restricted to
the characters it can meet in this package: ASCII space characters plus the
two Latin-1 space code points. -/
def isSpaceGo (c : Char) : Bool :=
  c == ' ' || c == '\t' || c == '\n' || c.toNat == 11 || c.toNat == 12 ||
  c == '\r' || c.toNat == 133 || c.toNat == 160

/-- strings.TrimSpace on a string modelled as a character list. -/
def trimSpace (s : List Char) : List Char :=
  ((s.dropWhile isSpaceGo).reverse.dropWhile isSpaceGo).reverse

/-- strings.Split with a one-character separator. -/
def splitOn (sep : Char) : List Char → List (List Char)
  | [] => [[]]
  | c :: rest =>
    if c = sep then [] :: splitOn sep rest
    else
      match splitOn sep rest with
      | [] => [[c]]
      | p :: ps => (c :: p) :: ps

/-- strings.Contains with a one-character substring. -/
def containsChar (sep : Char) : List Char → Bool
  | [] => false
  | c :: rest => c == sep || containsChar sep rest

/-- Decimal digit test, as strconv applies it to each character. -/
def isDigitChar (c : Char) : Bool := 48 ≤ c.toNat && c.toNat ≤ 57

/-- strconv.ParseUint with base 10 and bit size 64: every character must be a
decimal digit, the string must be nonempty, and the value must fit uint64. -/
def parseUint64 (s : List Char) : Option Nat :=
  if s = [] ∨ s.any (fun c => !isDigitChar c) then none
  else
    let v := s.foldl (fun acc c => acc * 10 + (c.toNat - 48)) 0
    if MaxU64 < v then none else some v

/-- Character of a decimal digit. -/
def digitChar (d : Nat) : Char := Char.ofNat (48 + d)

/-- Little-endian decimal digit list, with fuel to keep the recursion
structural; fuel n suffices since the digit count of n never exceeds n. -/
def digitsRevAux : Nat → Nat → List Nat
  | 0, _ => []
  | fuel+1, n => if n = 0 then [] else n % 10 :: digitsRevAux fuel (n / 10)

/-- Little-endian decimal digits of n (empty for 0). -/
def digitsRev (n : Nat) : List Nat := digitsRevAux n n

theorem digitsRevAux_eq (fuel : Nat) :
    ∀ n, n ≤ fuel → digitsRevAux fuel n = Nat.digits 10 n := by
  induction fuel with
  | zero => intro n h; interval_cases n; simp [digitsRevAux]
  | succ f ih =>
    intro n h
    simp only [digitsRevAux]
    by_cases hn : n = 0
    · subst hn; simp
    · rw [if_neg hn, ih (n / 10) (by
        have : n / 10 < n := Nat.div_lt_self (by omega) (by omega)
        omega)]
      rw [Nat.digits_def' (by omega : (1:Nat) < 10) (by omega : 0 < n)]

theorem digitsRev_eq (n : Nat) : digitsRev n = Nat.digits 10 n :=
  digitsRevAux_eq n n le_rfl

/-- Decimal rendering of an unsigned integer, as fmt.Sprint produces it. -/
def uintToChars (n : Nat) : List Char :=
  if n = 0 then ['0'] else (digitsRev n).reverse.map digitChar

/-- String() from the source: canonical zero renders as 0; otherwise an
optional minus sign, the numerator, and the denominator after a slash unless
the denominator is 1. -/
def Fraction.String (f : Fraction) : List Char :=
  if f.numerator = 0 then ['0']
  else
    (if f.negative then ['-'] else []) ++ uintToChars f.numerator ++
      (if f.denominator ≠ 1 then '/' :: uintToChars f.denominator else [])

/-- Fuel-based digit-counting loop of getintsize: size starts at 0 and is
incremented while c is nonzero, dividing c by 10 each round. Fuel i suffices
because the decimal length of i never exceeds i for positive i. -/
def getintsizeAux : Nat → Nat → Nat
  | 0, _ => 0
  | fuel+1, c => if c = 0 then 0 else getintsizeAux fuel (c / 10) + 1

/-- getintsize from the source: number of decimal digits of the value, with 0
counted as one digit. -/
def getintsize (i : Nat) : Nat :=
  if i = 0 then 1 else getintsizeAux i i

/-- Models the expression uint64(math.Pow(10, k)) from ParseDecimal.
math.Pow(10, k) is the exact power for every k that can fit uint64; beyond
that the float-to-uint64 conversion is implementation-defined in Go and is
modelled as 2^63, the amd64 result. -/
def pow10u (k : Nat) : Nat := if 10 ^ k ≤ MaxU64 then 10 ^ k else 2 ^ 63

/-- Outcome of a Go function that can also crash: a normal (value, error)
result or a runtime panic. -/
inductive PRes where
  | panic
  | ok (f : Fraction)
  | err (e : Err)
deriving DecidableEq, Repr

/-- ParseDecimal from the source. After trimming, the code reads str at index
0 unconditionally, which panics on an empty string. A leading minus sign is
recorded in negative and removed; the string is split on the dot; the two
segments are parsed by strconv.ParseUint; with no fractional segment the
result is built directly from the integer part and the recorded sign, and
otherwise the fractional part rhs is turned into the fraction
rhs / 10^getintsize(rhs) and added to NewI(lhs), dropping the recorded sign. -/
def ParseDecimal (s : List Char) : PRes :=
  match trimSpace s with
  | [] => .panic
  | c :: rest =>
    let negative := c == '-'
    let str := if c == '-' then rest else c :: rest
    match splitOn '.' str with
    | [] => .err (.msg "too much dots")
    | p0 :: ps =>
      if 2 < (p0 :: ps).length then .err (.msg "too much dots")
      else if p0 = [] then .err (.msg "no leading numeral at left hand side of decimal")
      else
        match parseUint64 p0 with
        | none => .err .strconvError
        | some lhs =>
          match ps with
          | [] => .ok ⟨lhs, 1, negative⟩
          | p1 :: _ =>
            match parseUint64 p1 with
            | none => .err .strconvError
            | some rhs =>
              match New (Int.ofNat rhs) (Int.ofNat (pow10u (getintsize rhs))) with
              | .error e => .err e
              | .ok fracpart =>
                match Add (NewI (Int.ofNat lhs)) fracpart with
                | .error e => .err e
                | .ok f => .ok f

/-- ParseFracString from the source: trim, optional minus sign with re-trim,
split on the slash, trim and parse each segment, reject an explicit zero
denominator, and normalize the assembled fraction. -/
def ParseFracString (str : List Char) : Except Err Fraction :=
  match trimSpace str with
  | [] => .error (.msg "empty fraction")
  | c :: rest =>
    let sign := c == '-'
    let s := if c == '-' then trimSpace rest else c :: rest
    if sign ∧ s = [] then .error (.msg "no leading numeral (no numbers after sign)")
    else
      match splitOn '/' s with
      | [] => .error (.msg "numerator cannot be empty")
      | p0 :: ps =>
        if 2 < (p0 :: ps).length then .error (.msg "to many fraction separators /")
        else
          let numeratorStr := trimSpace p0
          if numeratorStr = [] then .error (.msg "numerator cannot be empty")
          else
            match parseUint64 numeratorStr with
            | none => .error (.msg "numerator could not be parsed to unsigned 64 bit int")
            | some num =>
              match ps with
              | [] => .ok (Fraction.normalize ⟨num, 1, sign⟩)
              | p1 :: _ =>
                let denominatorStr := trimSpace p1
                if denominatorStr = [] then
                  .error (.msg "fraction separator found but numerator empty")
                else
                  match parseUint64 denominatorStr with
                  | none =>
                    .error (.msg "denominator could not be parsed to unsigned 64 bit int")
                  | some den =>
                    if den = 0 then .error .zeroDenominator
                    else .ok (Fraction.normalize ⟨num, den, sign⟩)

/-- Parse from the source: dispatch on the presence of a slash. The dispatch
target ParseFracString cannot panic, so its two-valued result is injected
into PRes. -/
def Parse (s : List Char) : PRes :=
  if containsChar '/' s then
    match ParseFracString s with
    | .ok f => .ok f
    | .error e => .err e
  else ParseDecimal s

/-- State of the continued-fraction convergent loop of FromFloat64Approx:
the previous convergent pPrev / qPrev and the current convergent p / q. -/
structure ApproxState where
  pPrev : Nat
  qPrev : Nat
  p : Nat
  q : Nat
deriving DecidableEq, Repr

/-- Convergent loop of FromFloat64Approx. The floating-point quantities are
abstracted into oracles: a i is the uint64 value of math.Floor(x) at
iteration i, and stop i tells whether the fractional part of x is exactly 0
at iteration i (the loop then keeps the freshly advanced convergent). All
uint64 arithmetic of the source is kept exact by the overflow pre-check
except the two convergent updates, whose additions can still wrap and are
therefore reduced modulo 2^64. -/
def approxLoop (maxDen : Nat) (a : Nat → Nat) (stop : Nat → Bool) :
    Nat → Nat → ApproxState → ApproxState
  | _, 0, st => st
  | i, fuel+1, st =>
    if a i ≠ 0 ∧ (st.p > MaxU64 / a i ∨ st.q > MaxU64 / a i) then st
    else
      let newP := (a i * st.p + st.pPrev) % 2 ^ 64
      let newQ := (a i * st.q + st.qPrev) % 2 ^ 64
      if newQ = 0 ∨ newQ > maxDen then st
      else
        let st2 : ApproxState := ⟨st.p, st.q, newP, newQ⟩
        if stop i then st2
        else approxLoop maxDen a stop (i + 1) fuel st2

/-- FromFloat64Approx from the source, with its floating-point inputs
abstracted: isNaN models math.IsNaN(f), isZeroF models f == 0, neg models
f < 0, and a and stop drive the convergent loop as described at approxLoop.
The loop starts from the convergents 0/1 and 1/0 and runs at most 1000
rounds; the result is the normalized current convergent with the recorded
sign. -/
def FromFloat64Approx (isNaN isZeroF neg : Bool) (a : Nat → Nat)
    (stop : Nat → Bool) (maxDen : Nat) : Except Err Fraction :=
  if isNaN = true ∨ maxDen = 0 then .error .invalid
  else if isZeroF = true then .ok zeroValue
  else
    let st := approxLoop maxDen a stop 0 1000 ⟨0, 1, 1, 0⟩
    .ok (Fraction.normalize ⟨st.p, st.q, neg⟩)

/-- Canonical-form invariant as the specification states it: uint64-sized
fields, a nonzero denominator, a fully reduced pair, and the unique
representation of zero as positive 0 over 1. -/
def Canonical (f : Fraction) : Prop :=
  f.numerator ≤ MaxU64 ∧ f.denominator ≤ MaxU64 ∧ 0 < f.denominator ∧
  Nat.gcd f.numerator f.denominator = 1 ∧
  (f.numerator = 0 → f.negative = false ∧ f.denominator = 1)

instance (f : Fraction) : Decidable (Canonical f) := by
  unfold Canonical; infer_instance

/-- Overflow condition of Multiply as the specification states it: after
cross-cancellation by g1 = gcd(num1, den2) and g2 = gcd(num2, den1), the
exact numerator product or the exact denominator product exceeds MaxU64. -/
def MulOverflowSpec (f1 f2 : Fraction) : Prop :=
  MaxU64 < (f1.numerator / gcdGo f1.numerator f2.denominator) *
      (f2.numerator / gcdGo f2.numerator f1.denominator) ∨
  MaxU64 < (f1.denominator / gcdGo f2.numerator f1.denominator) *
      (f2.denominator / gcdGo f1.numerator f2.denominator)

instance (f1 f2 : Fraction) : Decidable (MulOverflowSpec f1 f2) := by
  unfold MulOverflowSpec; infer_instance

theorem div_pos_of_dvd {a b : Nat} (hb : b ∣ a) (ha : 0 < a) : 0 < a / b := by
  rcases Nat.eq_zero_or_pos b with h | h
  · subst h; simp at hb; omega
  · exact Nat.div_pos (Nat.le_of_dvd ha hb) h

theorem gt_div_iff (x y : Nat) (hy : 0 < y) : MaxU64 / y < x ↔ MaxU64 < x * y := by
  rw [← not_le, ← not_le, not_iff_not]
  exact Nat.le_div_iff_mul_le hy

theorem normalize_canonical_id (f : Fraction) (hf : Canonical f) : f.normalize = f := by
  obtain ⟨hn, hd, hdpos, hg, hz⟩ := hf
  unfold Fraction.normalize
  by_cases h0 : f.numerator = 0
  · obtain ⟨hneg, hden⟩ := hz h0
    rw [if_pos h0]
    cases f
    simp_all
  · rw [if_neg h0]
    simp only [gcdGo_eq, hg]
    cases f
    simp

theorem canonical_normalize (f : Fraction) (hn : f.numerator ≤ MaxU64)
    (hd : f.denominator ≤ MaxU64) (hdpos : 0 < f.denominator) :
    Canonical f.normalize := by
  unfold Fraction.normalize
  by_cases h0 : f.numerator = 0
  · rw [if_pos h0]; decide
  · rw [if_neg h0]
    simp only [gcdGo_eq]
    have hgpos : 0 < Nat.gcd f.numerator f.denominator :=
      Nat.gcd_pos_of_pos_right _ hdpos
    have hdvd1 : Nat.gcd f.numerator f.denominator ∣ f.numerator := Nat.gcd_dvd_left _ _
    have hdvd2 : Nat.gcd f.numerator f.denominator ∣ f.denominator := Nat.gcd_dvd_right _ _
    refine ⟨le_trans (Nat.div_le_self _ _) hn, le_trans (Nat.div_le_self _ _) hd,
      div_pos_of_dvd hdvd2 hdpos, Nat.coprime_div_gcd_div_gcd hgpos, ?_⟩
    intro hzz
    dsimp only at hzz
    have : 0 < f.numerator / Nat.gcd f.numerator f.denominator :=
      div_pos_of_dvd hdvd1 (by omega)
    omega

/-- C1: the claim states that ParseDecimal applies a leading minus sign to
the whole value, so that ParseDecimal of the string -0.3 yields the negative
fraction -3/10. The code records the sign but then builds the result as
NewI(lhs).Add(fracpart), never using it when a fractional segment exists:
ParseDecimal of -0.3 evaluates to the positive fraction 3/10. -/
theorem C1_parseDecimal_drops_sign :
    ParseDecimal ['-', '0', '.', '3'] = .ok ⟨3, 10, false⟩ := by decide

/-- C2: the claim states every fraction returned by a public producer is
canonical; ParseDecimal on the string -0 returns the fraction with numerator
0, denominator 1 and the negative flag set, which violates the canonical-zero
part of the invariant. -/
theorem C2_parseDecimal_negzero_not_canonical :
    ParseDecimal ['-', '0'] = .ok ⟨0, 1, true⟩ ∧ ¬ Canonical ⟨0, 1, true⟩ := by decide

/-- C3: the claim states the fractional part of a decimal string gets the
denominator 10 to the number of digit characters of the fractional segment,
so 0.05 should contribute 5/100 and parse to 1/20. The code instead raises 10
to getintsize(rhs), the digit count of the parsed value, which ignores
leading zeros: the segment 05 gives denominator 10 and the string 0.05
parses to 1/2. -/
theorem C3_parseDecimal_leading_zero_denominator :
    ParseDecimal ['0', '.', '0', '5'] = .ok ⟨1, 2, false⟩ ∧
    getintsize 5 = 1 ∧ pow10u (getintsize 5) = 10 := by decide

/-- C5: the claim states Parse, ParseDecimal and ParseFracString return a
value-or-error pair on every string, including empty and all-whitespace
input. ParseDecimal indexes the trimmed string at position 0 without a length
check, so the empty string makes it panic, and Parse on a whitespace-only
string dispatches to ParseDecimal and panics as well. -/
theorem C5_parse_empty_panics :
    ParseDecimal [] = .panic ∧ Parse [' '] = .panic := by decide

/-- C6: Divide inverts its second operand and multiplies, so it fails with
the ZeroDenominator error exactly when the divisor has numerator 0 (in
particular when the divisor is Zero()), and on a nonzero divisor it returns
exactly Multiply of the first operand with the swapped divisor, whatever
that returns. -/
theorem C6_divide_invert_multiply (f1 f2 : Fraction) :
    (Divide f1 f2 = .error .zeroDenominator ↔ f2.numerator = 0) ∧
    (f2.numerator ≠ 0 →
      Divide f1 f2 = Multiply f1 ⟨f2.denominator, f2.numerator, f2.negative⟩) ∧
    Divide f1 Zero = .error .zeroDenominator := by
  have hmul : ∀ g1 g2 : Fraction, Multiply g1 g2 ≠ .error .zeroDenominator := by
    intro g1 g2
    unfold Multiply
    by_cases h : g1.numerator = 0 ∨ g2.numerator = 0
    · simp [h]
    · rw [if_neg h]
      dsimp only
      split <;> simp
  have heq : f2.numerator ≠ 0 →
      Divide f1 f2 = Multiply f1 ⟨f2.denominator, f2.numerator, f2.negative⟩ := by
    intro h
    unfold Divide Invert
    rw [if_neg h]
  have hzero : ∀ g : Fraction, g.numerator = 0 →
      Divide f1 g = .error .zeroDenominator := by
    intro g h
    unfold Divide Invert
    rw [if_pos h]
  refine ⟨⟨?_, hzero f2⟩, heq, hzero Zero rfl⟩
  intro h
  by_contra hne
  rw [heq hne] at h
  exact hmul _ _ h

/-- C7: on a canonical fraction with nonzero numerator, Invert succeeds by
swapping numerator and denominator while keeping the sign, and applying
Invert to the result gives back the original fraction; on a zero numerator
Invert fails with the ZeroDenominator error. -/
theorem C7_invert_involution (f : Fraction) (hf : Canonical f) :
    (f.numerator = 0 → Invert f = .error .zeroDenominator) ∧
    (f.numerator ≠ 0 → ∃ g, Invert f = .ok g ∧ Invert g = .ok f) := by
  obtain ⟨-, -, hdpos, -, -⟩ := hf
  constructor
  · intro h
    unfold Invert
    rw [if_pos h]
  · intro h
    refine ⟨⟨f.denominator, f.numerator, f.negative⟩, ?_, ?_⟩
    · unfold Invert
      rw [if_neg h]
    · unfold Invert
      rw [if_neg (by dsimp only; omega)]

theorem normalize_den_le (f : Fraction) (b : Nat) (h1 : 1 ≤ b)
    (h2 : f.denominator ≤ b) : f.normalize.denominator ≤ b := by
  unfold Fraction.normalize
  by_cases h0 : f.numerator = 0
  · rw [if_pos h0]
    exact h1
  · rw [if_neg h0]
    exact le_trans (Nat.div_le_self _ _) h2

theorem approxLoop_bounds (maxDen : Nat) (a : Nat → Nat) (stop : Nat → Bool)
    (fuel : Nat) : ∀ i st, 1 ≤ st.q → st.q ≤ maxDen → st.p ≤ MaxU64 →
    1 ≤ (approxLoop maxDen a stop i fuel st).q ∧
    (approxLoop maxDen a stop i fuel st).q ≤ maxDen ∧
    (approxLoop maxDen a stop i fuel st).p ≤ MaxU64 := by
  induction fuel with
  | zero =>
    intro i st h1 h2 h3
    exact ⟨h1, h2, h3⟩
  | succ f ih =>
    intro i st h1 h2 h3
    simp only [approxLoop]
    split
    · exact ⟨h1, h2, h3⟩
    · split
      · exact ⟨h1, h2, h3⟩
      · next hnq =>
        push_neg at hnq
        have hpb : (a i * st.p + st.pPrev) % 2 ^ 64 ≤ MaxU64 := by
          have := Nat.mod_lt (a i * st.p + st.pPrev) (y := 2 ^ 64) (by norm_num)
          unfold MaxU64
          omega
        have hq1 : 1 ≤ (a i * st.q + st.qPrev) % 2 ^ 64 := by
          have := hnq.1
          omega
        split
        · exact ⟨hq1, hnq.2, hpb⟩
        · exact ih (i + 1) _ hq1 hnq.2 hpb

theorem approxLoop_init (maxDen : Nat) (a : Nat → Nat) (stop : Nat → Bool)
    (fuel : Nat) (hmd1 : 1 ≤ maxDen) (ha : ∀ i, a i ≤ MaxU64) :
    1 ≤ (approxLoop maxDen a stop 0 (fuel + 1) ⟨0, 1, 1, 0⟩).q ∧
    (approxLoop maxDen a stop 0 (fuel + 1) ⟨0, 1, 1, 0⟩).q ≤ maxDen ∧
    (approxLoop maxDen a stop 0 (fuel + 1) ⟨0, 1, 1, 0⟩).p ≤ MaxU64 := by
  have hq1v : (a 0 * 0 + 1) % 2 ^ 64 = 1 := by norm_num
  have hpb : (a 0 * 1 + 0) % 2 ^ 64 ≤ MaxU64 := by
    have := Nat.mod_lt (a 0 * 1 + 0) (y := 2 ^ 64) (by norm_num)
    unfold MaxU64
    omega
  simp only [approxLoop]
  split
  · next hcond =>
    exfalso
    obtain ⟨ha0, hor⟩ := hcond
    have h1 : 1 ≤ MaxU64 / a 0 := (Nat.one_le_div_iff (by omega)).mpr (ha 0)
    omega
  · split
    · next hq =>
      exfalso
      rw [hq1v] at hq
      omega
    · next hq =>
      push_neg at hq
      have hq1 : 1 ≤ (a 0 * 0 + 1) % 2 ^ 64 := by omega
      split
      · exact ⟨hq1, hq.2, hpb⟩
      · exact approxLoop_bounds maxDen a stop fuel (0 + 1) _ hq1 hq.2 hpb

/-- C4: on canonical operands, Multiply fails with the OutOfRange error
exactly when one of the two exact cross-cancelled products exceeds MaxU64,
and when no overflow threatens it returns the normalization of the exact
products, both of which stay within uint64 range, so no wrapped value ever
reaches a result. -/
theorem C4_multiply_overflow_iff (f1 f2 : Fraction)
    (h1 : Canonical f1) (h2 : Canonical f2) :
    (Multiply f1 f2 = .error .outOfRange ↔ MulOverflowSpec f1 f2) ∧
    (¬ MulOverflowSpec f1 f2 → f1.numerator ≠ 0 → f2.numerator ≠ 0 →
      Multiply f1 f2 = .ok (Fraction.normalize
        ⟨(f1.numerator / gcdGo f1.numerator f2.denominator) *
            (f2.numerator / gcdGo f2.numerator f1.denominator),
          (f1.denominator / gcdGo f2.numerator f1.denominator) *
            (f2.denominator / gcdGo f1.numerator f2.denominator),
          f1.negative != f2.negative⟩) ∧
      (f1.numerator / gcdGo f1.numerator f2.denominator) *
          (f2.numerator / gcdGo f2.numerator f1.denominator) ≤ MaxU64 ∧
      (f1.denominator / gcdGo f2.numerator f1.denominator) *
          (f2.denominator / gcdGo f1.numerator f2.denominator) ≤ MaxU64) := by
  obtain ⟨hn1, hd1, hd1p, -, -⟩ := h1
  obtain ⟨hn2, hd2, hd2p, -, -⟩ := h2
  by_cases hz : f1.numerator = 0 ∨ f2.numerator = 0
  · have hspec : ¬ MulOverflowSpec f1 f2 := by
      unfold MulOverflowSpec
      simp only [gcdGo_eq]
      push_neg
      rcases hz with h | h
      · rw [h]
        refine ⟨by simp, ?_⟩
        rw [Nat.gcd_zero_left, Nat.div_self hd2p, Nat.mul_one]
        exact le_trans (Nat.div_le_self _ _) hd1
      · rw [h]
        refine ⟨by simp, ?_⟩
        rw [Nat.gcd_zero_left, Nat.div_self hd1p, Nat.one_mul]
        exact le_trans (Nat.div_le_self _ _) hd2
    have hmul : Multiply f1 f2 = .ok zeroValue := by
      unfold Multiply
      rw [if_pos hz]
    refine ⟨⟨fun h => absurd (hmul ▸ h) (by simp), fun h => absurd h hspec⟩, ?_⟩
    intro _ ha hb
    exact absurd hz (by tauto)
  · push_neg at hz
    obtain ⟨h1z, h2z⟩ := hz
    have hg1d : Nat.gcd f1.numerator f2.denominator ∣ f2.denominator :=
      Nat.gcd_dvd_right _ _
    have hg2n : Nat.gcd f2.numerator f1.denominator ∣ f2.numerator :=
      Nat.gcd_dvd_left _ _
    have hn2p : 0 < f2.numerator / Nat.gcd f2.numerator f1.denominator :=
      div_pos_of_dvd hg2n (by omega)
    have hd2p2 : 0 < f2.denominator / Nat.gcd f1.numerator f2.denominator :=
      div_pos_of_dvd hg1d hd2p
    have hiff : MulOverflowSpec f1 f2 ↔
        (MaxU64 / (f2.numerator / Nat.gcd f2.numerator f1.denominator) <
            f1.numerator / Nat.gcd f1.numerator f2.denominator ∨
          MaxU64 / (f2.denominator / Nat.gcd f1.numerator f2.denominator) <
            f1.denominator / Nat.gcd f2.numerator f1.denominator) := by
      unfold MulOverflowSpec
      simp only [gcdGo_eq]
      rw [gt_div_iff _ _ hn2p, gt_div_iff _ _ hd2p2]
    have hmul : Multiply f1 f2 =
        if MaxU64 / (f2.numerator / Nat.gcd f2.numerator f1.denominator) <
              f1.numerator / Nat.gcd f1.numerator f2.denominator ∨
            MaxU64 / (f2.denominator / Nat.gcd f1.numerator f2.denominator) <
              f1.denominator / Nat.gcd f2.numerator f1.denominator then
          .error .outOfRange
        else .ok (Fraction.normalize
          ⟨(f1.numerator / Nat.gcd f1.numerator f2.denominator) *
              (f2.numerator / Nat.gcd f2.numerator f1.denominator),
            (f1.denominator / Nat.gcd f2.numerator f1.denominator) *
              (f2.denominator / Nat.gcd f1.numerator f2.denominator),
            f1.negative != f2.negative⟩) := by
      unfold Multiply
      rw [if_neg (by tauto)]
      simp only [gcdGo_eq]
    by_cases hov : MulOverflowSpec f1 f2
    · have hcond := hiff.mp hov
      rw [hmul, if_pos hcond]
      exact ⟨⟨fun _ => hov, fun _ => rfl⟩, fun h => absurd hov h⟩
    · have hcond := (not_iff_not.mpr hiff).mp hov
      rw [hmul, if_neg hcond]
      push_neg at hcond
      refine ⟨⟨by simp, fun h => absurd h hov⟩, ?_⟩
      intro _ _ _
      simp only [gcdGo_eq]
      refine ⟨trivial, ?_, ?_⟩
      · exact (Nat.le_div_iff_mul_le hn2p).mp hcond.1
      · exact (Nat.le_div_iff_mul_le hd2p2).mp hcond.2

/-- Witness for C4 at the canonical pair 2/3 and -5/7. -/
theorem C4_multiply_overflow_iff_witness :
    Canonical ⟨2, 3, false⟩ ∧ Canonical ⟨5, 7, true⟩ ∧
    ((Multiply ⟨2, 3, false⟩ ⟨5, 7, true⟩ = .error .outOfRange ↔
        MulOverflowSpec ⟨2, 3, false⟩ ⟨5, 7, true⟩) ∧
      (¬ MulOverflowSpec ⟨2, 3, false⟩ ⟨5, 7, true⟩ →
        (⟨2, 3, false⟩ : Fraction).numerator ≠ 0 →
        (⟨5, 7, true⟩ : Fraction).numerator ≠ 0 →
        Multiply ⟨2, 3, false⟩ ⟨5, 7, true⟩ = .ok (Fraction.normalize
          ⟨((⟨2, 3, false⟩ : Fraction).numerator / gcdGo 2 7) *
              ((⟨5, 7, true⟩ : Fraction).numerator / gcdGo 5 3),
            ((⟨2, 3, false⟩ : Fraction).denominator / gcdGo 5 3) *
              ((⟨5, 7, true⟩ : Fraction).denominator / gcdGo 2 7),
            false != true⟩) ∧
        ((⟨2, 3, false⟩ : Fraction).numerator / gcdGo 2 7) *
            ((⟨5, 7, true⟩ : Fraction).numerator / gcdGo 5 3) ≤ MaxU64 ∧
        ((⟨2, 3, false⟩ : Fraction).denominator / gcdGo 5 3) *
            ((⟨5, 7, true⟩ : Fraction).denominator / gcdGo 2 7) ≤ MaxU64)) :=
  ⟨by decide, by decide,
    C4_multiply_overflow_iff ⟨2, 3, false⟩ ⟨5, 7, true⟩ (by decide) (by decide)⟩

theorem digitChar_facts (d : Nat) (hd : d < 10) :
    (digitChar d).toNat = 48 + d ∧ isDigitChar (digitChar d) = true ∧
    isSpaceGo (digitChar d) = false ∧ digitChar d ≠ '-' ∧ digitChar d ≠ '/' ∧
    digitChar d ≠ '.' := by
  interval_cases d <;> exact ⟨by decide, by decide, by decide, by decide, by decide,
    by decide⟩

theorem uintToChars_facts (n : Nat) : ∀ c ∈ uintToChars n,
    isDigitChar c = true ∧ isSpaceGo c = false ∧ c ≠ '-' ∧ c ≠ '/' ∧ c ≠ '.' := by
  intro c hc
  unfold uintToChars at hc
  by_cases hn : n = 0
  · rw [if_pos hn] at hc
    simp at hc
    subst hc
    exact ⟨by decide, by decide, by decide, by decide, by decide⟩
  · rw [if_neg hn] at hc
    simp only [List.mem_map, List.mem_reverse] at hc
    obtain ⟨d, hd, rfl⟩ := hc
    rw [digitsRev_eq] at hd
    have hlt : d < 10 := Nat.digits_lt_base (by norm_num) hd
    obtain ⟨-, h2, h3, h4, h5, h6⟩ := digitChar_facts d hlt
    exact ⟨h2, h3, h4, h5, h6⟩

theorem uintToChars_ne_nil (n : Nat) : uintToChars n ≠ [] := by
  unfold uintToChars
  by_cases hn : n = 0
  · rw [if_pos hn]
    simp
  · rw [if_neg hn]
    simp [digitsRev_eq, Nat.digits_ne_nil_iff_ne_zero, hn]

theorem foldl_digits (l : List Nat) (hl : ∀ d ∈ l, d < 10) (a : Nat) :
    ((l.reverse.map digitChar).foldl (fun acc c => acc * 10 + (c.toNat - 48)) a)
      = a * 10 ^ l.length + Nat.ofDigits 10 l := by
  induction l generalizing a with
  | nil => simp
  | cons d t ih =>
    have hd : d < 10 := hl d (by simp)
    have ht : ∀ x ∈ t, x < 10 := fun x hx => hl x (by simp [hx])
    simp only [List.reverse_cons, List.map_append, List.foldl_append, List.map_cons,
      List.map_nil, List.foldl_cons, List.foldl_nil]
    rw [ih ht a, (digitChar_facts d hd).1, Nat.add_sub_cancel_left, Nat.ofDigits_cons,
      List.length_cons, pow_succ]
    ring

theorem parseUint64_uintToChars (n : Nat) (hn : n ≤ MaxU64) :
    parseUint64 (uintToChars n) = some n := by
  unfold parseUint64
  rw [if_neg ?hcond]
  case hcond =>
    rintro (h | h)
    · exact uintToChars_ne_nil n h
    · rw [List.any_eq_true] at h
      obtain ⟨c, hc, hcp⟩ := h
      have := (uintToChars_facts n c hc).1
      simp [this] at hcp
  have hval : (uintToChars n).foldl (fun acc c => acc * 10 + (c.toNat - 48)) 0 = n := by
    unfold uintToChars
    by_cases h0 : n = 0
    · rw [if_pos h0, h0]
      decide
    · rw [if_neg h0, digitsRev_eq,
        foldl_digits _ (fun d hd => Nat.digits_lt_base (by norm_num) hd) 0,
        Nat.ofDigits_digits, Nat.zero_mul, Nat.zero_add]
  rw [hval, if_neg (by omega)]

theorem dropWhile_eq_self (p : Char → Bool) (s : List Char)
    (h : ∀ c ∈ s, p c = false) : s.dropWhile p = s := by
  cases s with
  | nil => rfl
  | cons c t =>
    rw [List.dropWhile_cons, h c (by simp)]
    simp

theorem trimSpace_eq_self (s : List Char) (h : ∀ c ∈ s, isSpaceGo c = false) :
    trimSpace s = s := by
  unfold trimSpace
  rw [dropWhile_eq_self _ _ h,
    dropWhile_eq_self _ _ (fun c hc => h c (List.mem_reverse.mp hc)),
    List.reverse_reverse]

theorem splitOn_not_mem (sep : Char) (s : List Char) (h : ∀ c ∈ s, c ≠ sep) :
    splitOn sep s = [s] := by
  induction s with
  | nil => rfl
  | cons c t ih =>
    unfold splitOn
    rw [if_neg (h c (by simp)), ih (fun x hx => h x (by simp [hx]))]

theorem splitOn_append (sep : Char) (xs ys : List Char) (h : ∀ c ∈ xs, c ≠ sep) :
    splitOn sep (xs ++ sep :: ys) = xs :: splitOn sep ys := by
  induction xs with
  | nil =>
    simp only [List.nil_append]
    simp only [splitOn]
    simp
  | cons c t ih =>
    simp only [List.cons_append]
    simp only [splitOn]
    rw [if_neg (h c (by simp)), ih (fun x hx => h x (by simp [hx]))]

theorem containsChar_eq_false (sep : Char) (s : List Char) (h : ∀ c ∈ s, c ≠ sep) :
    containsChar sep s = false := by
  induction s with
  | nil => rfl
  | cons c t ih =>
    have hc : c ≠ sep := h c (by simp)
    simp [containsChar, hc, ih (fun x hx => h x (by simp [hx]))]

theorem containsChar_append_cons (sep : Char) (xs ys : List Char) :
    containsChar sep (xs ++ sep :: ys) = true := by
  induction xs with
  | nil => simp [containsChar]
  | cons c t ih => simp [containsChar, ih]

theorem normalize_zero (d : Nat) (b : Bool) :
    Fraction.normalize ⟨0, d, b⟩ = ⟨0, 1, false⟩ := by
  unfold Fraction.normalize
  rw [if_pos rfl]

theorem fastAdd_comm (f1 f2 : Fraction) (hb1 : f1.numerator ≤ MaxU64)
    (hb2 : f2.numerator ≤ MaxU64) (hd : f1.denominator = f2.denominator) :
    fastAdd f1 f2 = fastAdd f2 f1 := by
  unfold fastAdd
  by_cases hneg : f1.negative = f2.negative
  · rw [if_pos hneg, if_pos hneg.symm]
    by_cases hov : f1.numerator > MaxU64 - f2.numerator
    · rw [if_pos hov, if_pos (show f2.numerator > MaxU64 - f1.numerator by omega)]
    · rw [if_neg hov,
        if_neg (show ¬ (f2.numerator > MaxU64 - f1.numerator) by omega)]
      rw [Nat.add_comm f1.numerator f2.numerator, hd, hneg]
  · rw [if_neg hneg, if_neg (show ¬ (f2.negative = f1.negative) from fun h => hneg h.symm)]
    rcases Nat.lt_trichotomy f1.numerator f2.numerator with h | h | h
    · rw [if_neg (show ¬ (f1.numerator ≥ f2.numerator) by omega),
        if_pos (show f2.numerator ≥ f1.numerator by omega), hd]
    · rw [if_pos (show f1.numerator ≥ f2.numerator by omega),
        if_pos (show f2.numerator ≥ f1.numerator by omega),
        show f1.numerator - f2.numerator = 0 by omega,
        show f2.numerator - f1.numerator = 0 by omega,
        normalize_zero, normalize_zero]
    · rw [if_pos (show f1.numerator ≥ f2.numerator by omega),
        if_neg (show ¬ (f2.numerator ≥ f1.numerator) by omega), hd]

theorem Add_general_comm (f1 f2 : Fraction) (h1 : Canonical f1) (h2 : Canonical f2)
    (hz1 : f1.numerator ≠ 0) (hz2 : f2.numerator ≠ 0)
    (hd : f1.denominator ≠ f2.denominator) : Add f1 f2 = Add f2 f1 := by
  obtain ⟨hn1b, hd1b, hd1p, -, -⟩ := h1
  obtain ⟨hn2b, hd2b, hd2p, -, -⟩ := h2
  have hz1b : ¬ (f1.isZero = true) := by simp [Fraction.isZero, hz1]
  have hz2b : ¬ (f2.isZero = true) := by simp [Fraction.isZero, hz2]
  unfold Add
  simp only [gcdGo_eq]
  rw [Nat.gcd_comm f2.denominator f1.denominator]
  rw [if_neg hz1b, if_neg hz2b, if_neg hd, if_neg hz2b, if_neg hz1b,
    if_neg (show ¬ (f2.denominator = f1.denominator) from fun h => hd h.symm)]
  set g := Nat.gcd f1.denominator f2.denominator with hg
  set s1 := f2.denominator / g with hs1
  set s2 := f1.denominator / g with hs2
  have hs1p : 0 < s1 := div_pos_of_dvd (Nat.gcd_dvd_right _ _) hd2p
  have hs2p : 0 < s2 := div_pos_of_dvd (Nat.gcd_dvd_left _ _) hd1p
  have e_den : s2 * f2.denominator = s1 * f1.denominator := by
    rw [hs2, hs1, hg]
    rw [Nat.mul_comm (f1.denominator / Nat.gcd f1.denominator f2.denominator)
        f2.denominator,
      ← Nat.mul_div_assoc f2.denominator (Nat.gcd_dvd_left f1.denominator f2.denominator),
      Nat.mul_comm f2.denominator f1.denominator,
      Nat.mul_div_assoc f1.denominator (Nat.gcd_dvd_right f1.denominator f2.denominator),
      Nat.mul_comm f1.denominator
        (f2.denominator / Nat.gcd f1.denominator f2.denominator)]
  have e_ck : (s2 > MaxU64 / f2.denominator) ↔ (s1 > MaxU64 / f1.denominator) := by
    rw [gt_iff_lt, gt_iff_lt, gt_div_iff _ _ hd2p, gt_div_iff _ _ hd1p, e_den]
  by_cases hc1 : f1.numerator > MaxU64 / s1
  · rw [if_pos (show f1.numerator > MaxU64 / s1 ∨ f2.numerator > MaxU64 / s2
        from Or.inl hc1),
      if_pos (show f2.numerator > MaxU64 / s2 ∨ f1.numerator > MaxU64 / s1
        from Or.inr hc1)]
  · by_cases hc2 : f2.numerator > MaxU64 / s2
    · rw [if_pos (show f1.numerator > MaxU64 / s1 ∨ f2.numerator > MaxU64 / s2
          from Or.inr hc2),
        if_pos (show f2.numerator > MaxU64 / s2 ∨ f1.numerator > MaxU64 / s1
          from Or.inl hc2)]
    · rw [if_neg (show ¬ (f1.numerator > MaxU64 / s1 ∨ f2.numerator > MaxU64 / s2)
          from by tauto),
        if_neg (show ¬ (f2.numerator > MaxU64 / s2 ∨ f1.numerator > MaxU64 / s1)
          from by tauto)]
      have ha : f1.numerator * s1 ≤ MaxU64 := (Nat.le_div_iff_mul_le hs1p).mp (by omega)
      have hb : f2.numerator * s2 ≤ MaxU64 := (Nat.le_div_iff_mul_le hs2p).mp (by omega)
      by_cases hden : s2 > MaxU64 / f2.denominator
      · rw [if_pos hden, if_pos (e_ck.mp hden)]
      · rw [if_neg hden,
          if_neg (show ¬ (s1 > MaxU64 / f1.denominator) from fun h => hden (e_ck.mpr h))]
        by_cases hneg : f1.negative = f2.negative
        · rw [if_pos hneg, if_pos hneg.symm]
          by_cases hov : f1.numerator * s1 > MaxU64 - f2.numerator * s2
          · rw [if_pos hov,
              if_pos (show f2.numerator * s2 > MaxU64 - f1.numerator * s1 by omega)]
          · rw [if_neg hov,
              if_neg (show ¬ (f2.numerator * s2 > MaxU64 - f1.numerator * s1) by omega)]
            rw [Nat.add_comm (f1.numerator * s1) (f2.numerator * s2), e_den, hneg]
        · rw [if_neg hneg,
            if_neg (show ¬ (f2.negative = f1.negative) from fun h => hneg h.symm)]
          rcases Nat.lt_trichotomy (f1.numerator * s1) (f2.numerator * s2) with h | h | h
          · rw [if_neg (show ¬ (f1.numerator * s1 ≥ f2.numerator * s2) by omega),
              if_pos (show f2.numerator * s2 ≥ f1.numerator * s1 by omega), e_den]
          · rw [if_pos (show f1.numerator * s1 ≥ f2.numerator * s2 by omega),
              if_pos (show f2.numerator * s2 ≥ f1.numerator * s1 by omega),
              show f1.numerator * s1 - f2.numerator * s2 = 0 by omega,
              show f2.numerator * s2 - f1.numerator * s1 = 0 by omega,
              normalize_zero, normalize_zero]
          · rw [if_pos (show f1.numerator * s1 ≥ f2.numerator * s2 by omega),
              if_neg (show ¬ (f2.numerator * s2 ≥ f1.numerator * s1) by omega), e_den]

/-- C8: Add is commutative on canonical operands, returning the same fraction
or the same OutOfRange error either way round, and Zero() is a right
identity: Add(a, Zero()) returns a unchanged with no error. -/
theorem C8_add_comm_identity (f1 f2 : Fraction)
    (h1 : Canonical f1) (h2 : Canonical f2) :
    Add f1 f2 = Add f2 f1 ∧ Add f1 Zero = .ok f1 := by
  have hid : Add f1 Zero = .ok f1 := by
    by_cases hz : f1.isZero = true
    · have hnum : f1.numerator = 0 := by simpa [Fraction.isZero] using hz
      obtain ⟨-, -, -, -, hzi⟩ := h1
      obtain ⟨hneg, hden⟩ := hzi hnum
      unfold Add
      rw [if_pos hz, show Zero.normalize = (⟨0, 1, false⟩ : Fraction) from rfl]
      cases f1
      simp_all
    · unfold Add
      rw [if_neg hz, if_pos (show Zero.isZero = true from rfl),
        normalize_canonical_id f1 h1]
  refine ⟨?_, hid⟩
  by_cases hz1 : f1.isZero = true
  · by_cases hz2 : f2.isZero = true
    · have e1 : f1 = ⟨0, 1, false⟩ := by
        have hnum : f1.numerator = 0 := by simpa [Fraction.isZero] using hz1
        obtain ⟨-, -, -, -, hzi⟩ := h1
        obtain ⟨hneg, hden⟩ := hzi hnum
        cases f1
        simp_all
      have e2 : f2 = ⟨0, 1, false⟩ := by
        have hnum : f2.numerator = 0 := by simpa [Fraction.isZero] using hz2
        obtain ⟨-, -, -, -, hzi⟩ := h2
        obtain ⟨hneg, hden⟩ := hzi hnum
        cases f2
        simp_all
      rw [e1, e2]
    · unfold Add
      rw [if_pos hz1, if_neg hz2, if_pos hz1]
  · by_cases hz2 : f2.isZero = true
    · unfold Add
      rw [if_neg hz1, if_pos hz2, if_pos hz2]
    · have hn1 : f1.numerator ≠ 0 := by simpa [Fraction.isZero] using hz1
      have hn2 : f2.numerator ≠ 0 := by simpa [Fraction.isZero] using hz2
      by_cases hdd : f1.denominator = f2.denominator
      · unfold Add
        rw [if_neg hz1, if_neg hz2, if_pos hdd, if_neg hz2, if_neg hz1,
          if_pos hdd.symm]
        exact fastAdd_comm f1 f2 h1.1 h2.1 hdd
      · exact Add_general_comm f1 f2 h1 h2 hn1 hn2 hdd

/-- Witness for C8 at the canonical pair 1/2 and -1/3. -/
theorem C8_add_comm_identity_witness :
    Canonical ⟨1, 2, false⟩ ∧ Canonical ⟨1, 3, true⟩ ∧
    (Add ⟨1, 2, false⟩ ⟨1, 3, true⟩ = Add ⟨1, 3, true⟩ ⟨1, 2, false⟩ ∧
      Add ⟨1, 2, false⟩ Zero = .ok ⟨1, 2, false⟩) :=
  ⟨by decide, by decide, C8_add_comm_identity ⟨1, 2, false⟩ ⟨1, 3, true⟩
    (by decide) (by decide)⟩

/-- C10: FromFloat64Approx fails with the Invalid error exactly when the
input float is NaN or the denominator bound maxDen is 0; on every other
input it returns, with a nil error, a canonical fraction whose denominator
lies between 1 and maxDen — the convergent loop never advances past the
bound and the initial convergent 1/0 never escapes. The floating-point
quantities are abstracted into oracles (see approxLoop); the statement holds
for every oracle whose floor values fit uint64. -/
theorem C10_fromFloat64Approx_bounds (isNaN isZeroF neg : Bool) (a : Nat → Nat)
    (stop : Nat → Bool) (maxDen : Nat) (hmd : maxDen ≤ MaxU64)
    (ha : ∀ i, a i ≤ MaxU64) :
    (FromFloat64Approx isNaN isZeroF neg a stop maxDen = .error .invalid ↔
      (isNaN = true ∨ maxDen = 0)) ∧
    (¬ (isNaN = true ∨ maxDen = 0) →
      ∃ f, FromFloat64Approx isNaN isZeroF neg a stop maxDen = .ok f ∧
        Canonical f ∧ 1 ≤ f.denominator ∧ f.denominator ≤ maxDen) := by
  unfold FromFloat64Approx
  by_cases hinv : isNaN = true ∨ maxDen = 0
  · rw [if_pos hinv]
    exact ⟨⟨fun _ => hinv, fun _ => rfl⟩, fun h => absurd hinv h⟩
  · rw [if_neg hinv]
    have hmd1 : 1 ≤ maxDen := by
      rcases Nat.eq_zero_or_pos maxDen with h | h
      · exact absurd (Or.inr h) hinv
      · exact h
    by_cases hz : isZeroF = true
    · rw [if_pos hz]
      refine ⟨⟨fun h => by simp at h, fun h => absurd h hinv⟩, ?_⟩
      exact fun _ => ⟨zeroValue, rfl, by decide, le_refl 1, hmd1⟩
    · rw [if_neg hz]
      have h1000 : (1000 : Nat) = 999 + 1 := rfl
      rw [h1000]
      obtain ⟨hq1, hq2, hp⟩ := approxLoop_init maxDen a stop 999 hmd1 ha
      set st := approxLoop maxDen a stop 0 (999 + 1) ⟨0, 1, 1, 0⟩ with hst
      have hcan : Canonical (Fraction.normalize ⟨st.p, st.q, neg⟩) :=
        canonical_normalize ⟨st.p, st.q, neg⟩ hp (le_trans hq2 hmd) hq1
      refine ⟨⟨fun h => by simp at h, fun h => absurd h hinv⟩, fun _ => ⟨_, rfl, ?_, ?_, ?_⟩⟩
      · exact hcan
      · exact hcan.2.2.1
      · exact normalize_den_le ⟨st.p, st.q, neg⟩ maxDen hmd1 hq2

/-- Witness for C10 at the oracle with constant floor value 1, never-zero
fractional part, a non-NaN nonzero input and denominator bound 5. -/
theorem C10_fromFloat64Approx_bounds_witness :
    (5 : Nat) ≤ MaxU64 ∧ (∀ i : Nat, (fun _ : Nat => 1) i ≤ MaxU64) ∧
    ((FromFloat64Approx false false false (fun _ => 1) (fun _ => false) 5 =
        .error .invalid ↔ (false = true ∨ (5 : Nat) = 0)) ∧
      (¬ (false = true ∨ (5 : Nat) = 0) →
        ∃ f, FromFloat64Approx false false false (fun _ => 1) (fun _ => false) 5 =
            .ok f ∧ Canonical f ∧ 1 ≤ f.denominator ∧ f.denominator ≤ 5)) :=
  ⟨by decide, fun _ => (by decide : (1 : Nat) ≤ MaxU64),
    C10_fromFloat64Approx_bounds false false false (fun _ => 1) (fun _ => false) 5
      (by decide) (fun _ => (by decide : (1 : Nat) ≤ MaxU64))⟩

/-- Witness for C7 at the canonical fraction -2/3. -/
theorem C7_invert_involution_witness :
    Canonical ⟨2, 3, true⟩ ∧
    (((⟨2, 3, true⟩ : Fraction).numerator = 0 →
        Invert ⟨2, 3, true⟩ = .error .zeroDenominator) ∧
      ((⟨2, 3, true⟩ : Fraction).numerator ≠ 0 →
        ∃ g, Invert ⟨2, 3, true⟩ = .ok g ∧ Invert g = .ok ⟨2, 3, true⟩)) :=
  ⟨by decide, C7_invert_involution ⟨2, 3, true⟩ (by decide)⟩

theorem ParseFracString_String (f : Fraction) (hf : Canonical f) :
    ParseFracString f.String = .ok f := by
  have hnb := hf.1
  have hdb := hf.2.1
  have hdp := hf.2.2.1
  have hzi := hf.2.2.2.2
  by_cases hnum : f.numerator = 0
  · obtain ⟨hneg, hden⟩ := hzi hnum
    have hfe : f = ⟨0, 1, false⟩ := by
      cases f
      simp_all
    rw [hfe]
    decide
  · have hNf := uintToChars_facts f.numerator
    have hDf := uintToChars_facts f.denominator
    have hNnil := uintToChars_ne_nil f.numerator
    have hDnil := uintToChars_ne_nil f.denominator
    have htrimN : trimSpace (uintToChars f.numerator) = uintToChars f.numerator :=
      trimSpace_eq_self _ (fun c hc => (hNf c hc).2.1)
    have htrimD : trimSpace (uintToChars f.denominator) = uintToChars f.denominator :=
      trimSpace_eq_self _ (fun c hc => (hDf c hc).2.1)
    have hpN : parseUint64 (uintToChars f.numerator) = some f.numerator :=
      parseUint64_uintToChars _ hnb
    have hpD : parseUint64 (uintToChars f.denominator) = some f.denominator :=
      parseUint64_uintToChars _ hdb
    have hsplitN : splitOn '/' (uintToChars f.numerator) = [uintToChars f.numerator] :=
      splitOn_not_mem _ _ (fun c hc => (hNf c hc).2.2.2.1)
    have hsplitND : splitOn '/'
        (uintToChars f.numerator ++ '/' :: uintToChars f.denominator)
        = [uintToChars f.numerator, uintToChars f.denominator] := by
      rw [splitOn_append _ _ _ (fun c hc => (hNf c hc).2.2.2.1),
        splitOn_not_mem _ _ (fun c hc => (hDf c hc).2.2.2.1)]
    have heta : (⟨f.numerator, f.denominator, f.negative⟩ : Fraction) = f := rfl
    by_cases hneg : f.negative = true
    · by_cases hd1 : f.denominator = 1
      · have hstr : f.String = '-' :: uintToChars f.numerator := by
          simp [Fraction.String, hnum, hneg, hd1]
        rw [hstr]
        unfold ParseFracString
        rw [trimSpace_eq_self _ ?hns1]
        case hns1 =>
          intro c hc
          rcases List.mem_cons.mp hc with h | h
          · subst h; decide
          · exact (hNf c h).2.1
        dsimp only
        rw [if_pos (show ('-' == '-') = true from rfl), htrimN,
          if_neg (show ¬ ((('-' == '-') = true) ∧ uintToChars f.numerator = [])
            from fun h => hNnil h.2),
          hsplitN]
        dsimp only
        rw [if_neg (by simp), htrimN, if_neg hNnil, hpN]
        dsimp only
        rw [show ('-' == '-') = true from rfl, ← hneg, ← hd1, heta,
          normalize_canonical_id f hf]
      · have hstr : f.String = '-' ::
            (uintToChars f.numerator ++ '/' :: uintToChars f.denominator) := by
          simp [Fraction.String, hnum, hneg, hd1]
        rw [hstr]
        unfold ParseFracString
        rw [trimSpace_eq_self _ ?hns2]
        case hns2 =>
          intro c hc
          rcases List.mem_cons.mp hc with h | h
          · subst h; decide
          · rcases List.mem_append.mp h with h2 | h2
            · exact (hNf c h2).2.1
            · rcases List.mem_cons.mp h2 with h3 | h3
              · subst h3; decide
              · exact (hDf c h3).2.1
        dsimp only
        rw [if_pos (show ('-' == '-') = true from rfl),
          trimSpace_eq_self _ ?hns3]
        case hns3 =>
          intro c hc
          rcases List.mem_append.mp hc with h2 | h2
          · exact (hNf c h2).2.1
          · rcases List.mem_cons.mp h2 with h3 | h3
            · subst h3; decide
            · exact (hDf c h3).2.1
        rw [if_neg (show ¬ ((('-' == '-') = true) ∧
            uintToChars f.numerator ++ '/' :: uintToChars f.denominator = [])
            from fun h => by simpa using h.2),
          hsplitND]
        dsimp only
        rw [if_neg (by simp), htrimN, if_neg hNnil, hpN]
        dsimp only
        rw [htrimD, if_neg hDnil, hpD]
        dsimp only
        rw [if_neg (show ¬ (f.denominator = 0) from by omega),
          show ('-' == '-') = true from rfl, ← hneg, heta,
          normalize_canonical_id f hf]
    · have hnegf : f.negative = false := by
        cases hcase : f.negative
        · rfl
        · exact absurd hcase hneg
      obtain ⟨c0, N0, hN0⟩ : ∃ c0 N0, uintToChars f.numerator = c0 :: N0 := by
        cases hcase : uintToChars f.numerator with
        | nil => exact absurd hcase hNnil
        | cons a b => exact ⟨a, b, rfl⟩
      have hc0 : (c0 == '-') = false := by
        have := (hNf c0 (by rw [hN0]; simp)).2.2.1
        simpa using this
      by_cases hd1 : f.denominator = 1
      · have hstr : f.String = uintToChars f.numerator := by
          simp [Fraction.String, hnum, hnegf, hd1]
        rw [hstr, hN0]
        unfold ParseFracString
        rw [trimSpace_eq_self _ ?hns4]
        case hns4 =>
          intro c hc
          rw [← hN0] at hc
          exact (hNf c hc).2.1
        dsimp only
        rw [if_neg (show ¬ ((c0 == '-') = true) from by simp [hc0]),
          if_neg (show ¬ (((c0 == '-') = true) ∧ c0 :: N0 = [])
            from fun h => by simp [hc0] at h),
          ← hN0, hsplitN]
        dsimp only
        rw [if_neg (by simp), htrimN, if_neg hNnil, hpN]
        dsimp only
        rw [show (c0 == '-') = false from hc0, ← hnegf, ← hd1, heta,
          normalize_canonical_id f hf]
      · have hstr : f.String =
            uintToChars f.numerator ++ '/' :: uintToChars f.denominator := by
          simp [Fraction.String, hnum, hnegf, hd1]
        rw [hstr, hN0]
        simp only [List.cons_append]
        unfold ParseFracString
        rw [trimSpace_eq_self _ ?hns5]
        case hns5 =>
          intro c hc
          rw [← List.cons_append, ← hN0] at hc
          rcases List.mem_append.mp hc with h2 | h2
          · exact (hNf c h2).2.1
          · rcases List.mem_cons.mp h2 with h3 | h3
            · subst h3; decide
            · exact (hDf c h3).2.1
        dsimp only
        rw [if_neg (show ¬ ((c0 == '-') = true) from by simp [hc0]),
          if_neg (show ¬ (((c0 == '-') = true) ∧
              c0 :: (N0 ++ '/' :: uintToChars f.denominator) = [])
            from fun h => by simp [hc0] at h),
          ← List.cons_append, ← hN0, hsplitND]
        dsimp only
        rw [if_neg (by simp), htrimN, if_neg hNnil, hpN]
        dsimp only
        rw [htrimD, if_neg hDnil, hpD]
        dsimp only
        rw [if_neg (show ¬ (f.denominator = 0) from by omega),
          show (c0 == '-') = false from hc0, ← hnegf, heta,
          normalize_canonical_id f hf]

theorem ParseDecimal_String_int (f : Fraction) (hf : Canonical f)
    (hd1 : f.denominator = 1) : ParseDecimal f.String = .ok f := by
  have hnb := hf.1
  have hzi := hf.2.2.2.2
  by_cases hnum : f.numerator = 0
  · obtain ⟨hneg, hden⟩ := hzi hnum
    have hfe : f = ⟨0, 1, false⟩ := by
      cases f
      simp_all
    rw [hfe]
    decide
  · have hNf := uintToChars_facts f.numerator
    have hNnil := uintToChars_ne_nil f.numerator
    have hpN : parseUint64 (uintToChars f.numerator) = some f.numerator :=
      parseUint64_uintToChars _ hnb
    have hsplitN : splitOn '.' (uintToChars f.numerator) = [uintToChars f.numerator] :=
      splitOn_not_mem _ _ (fun c hc => (hNf c hc).2.2.2.2)
    have heta : (⟨f.numerator, f.denominator, f.negative⟩ : Fraction) = f := rfl
    by_cases hneg : f.negative = true
    · have hstr : f.String = '-' :: uintToChars f.numerator := by
        simp [Fraction.String, hnum, hneg, hd1]
      rw [hstr]
      unfold ParseDecimal
      rw [trimSpace_eq_self _ ?hns6]
      case hns6 =>
        intro c hc
        rcases List.mem_cons.mp hc with h | h
        · subst h; decide
        · exact (hNf c h).2.1
      dsimp only
      rw [if_pos (show ('-' == '-') = true from rfl), hsplitN]
      dsimp only
      rw [if_neg (by simp), if_neg hNnil, hpN]
      dsimp only
      rw [show ('-' == '-') = true from rfl, ← hneg, ← hd1, heta]
    · have hnegf : f.negative = false := by
        cases hcase : f.negative
        · rfl
        · exact absurd hcase hneg
      obtain ⟨c0, N0, hN0⟩ : ∃ c0 N0, uintToChars f.numerator = c0 :: N0 := by
        cases hcase : uintToChars f.numerator with
        | nil => exact absurd hcase hNnil
        | cons a b => exact ⟨a, b, rfl⟩
      have hc0 : (c0 == '-') = false := by
        have := (hNf c0 (by rw [hN0]; simp)).2.2.1
        simpa using this
      have hstr : f.String = uintToChars f.numerator := by
        simp [Fraction.String, hnum, hnegf, hd1]
      rw [hstr, hN0]
      unfold ParseDecimal
      rw [trimSpace_eq_self _ ?hns7]
      case hns7 =>
        intro c hc
        rw [← hN0] at hc
        exact (hNf c hc).2.1
      dsimp only
      rw [if_neg (show ¬ ((c0 == '-') = true) from by simp [hc0]), ← hN0, hsplitN]
      dsimp only
      rw [if_neg (by simp), if_neg hNnil, hpN]
      dsimp only
      rw [show (c0 == '-') = false from hc0, ← hnegf, ← hd1, heta]

/-- C9: parsing the display string reproduces a canonical fraction exactly,
both through ParseFracString and through the Parse dispatcher: canonical zero
renders as 0, denominator-1 values render without a slash and come back
through the decimal parser, and all other values render as
numerator/denominator with an optional leading minus sign and come back
through the rational parser, with no error in every case. -/
theorem C9_string_roundtrip (f : Fraction) (hf : Canonical f) :
    ParseFracString f.String = .ok f ∧ Parse f.String = PRes.ok f := by
  refine ⟨ParseFracString_String f hf, ?_⟩
  unfold Parse
  by_cases hd1 : f.denominator = 1
  · rw [if_neg ?hnc]
    case hnc =>
      intro hcc
      have hns : ∀ c ∈ f.String, c ≠ '/' := by
        intro c hc
        unfold Fraction.String at hc
        by_cases hnum : f.numerator = 0
        · rw [if_pos hnum] at hc
          simp at hc
          subst hc
          decide
        · rw [if_neg hnum,
            if_neg (show ¬ (f.denominator ≠ 1) from by simp [hd1])] at hc
          simp only [List.append_nil] at hc
          rcases List.mem_append.mp hc with h | h
          · split at h
            · simp at h
              subst h
              decide
            · simp at h
          · exact (uintToChars_facts f.numerator c h).2.2.2.1
      rw [containsChar_eq_false '/' f.String hns] at hcc
      exact Bool.false_ne_true hcc
    exact ParseDecimal_String_int f hf hd1
  · have hnum : f.numerator ≠ 0 := fun h => hd1 (hf.2.2.2.2 h).2
    have hstr : f.String = ((if f.negative = true then ['-'] else []) ++
        uintToChars f.numerator) ++ '/' :: uintToChars f.denominator := by
      simp [Fraction.String, hnum, hd1]
    rw [if_pos (show containsChar '/' f.String = true from by
      rw [hstr]; exact containsChar_append_cons _ _ _)]
    rw [ParseFracString_String f hf]

/-- Witness for C9 at the canonical fraction -2/3. -/
theorem C9_string_roundtrip_witness :
    Canonical ⟨2, 3, true⟩ ∧
    (ParseFracString (Fraction.String ⟨2, 3, true⟩) = .ok ⟨2, 3, true⟩ ∧
      Parse (Fraction.String ⟨2, 3, true⟩) = PRes.ok ⟨2, 3, true⟩) :=
  ⟨by decide, C9_string_roundtrip ⟨2, 3, true⟩ (by decide)⟩

end fraction

example : fraction.ParseDecimal ['-', '0', '.', '3'] = .ok ⟨3, 10, false⟩ := by decide
example : fraction.ParseDecimal ['2', '.', '5'] = .ok ⟨5, 2, false⟩ := by decide
example : fraction.ParseDecimal ['0', '.', '0', '5'] = .ok ⟨1, 2, false⟩ := by decide
example : fraction.ParseDecimal ['-', '0'] = .ok ⟨0, 1, true⟩ := by decide
example : fraction.ParseDecimal [] = .panic := by decide
example : fraction.Parse [' '] = .panic := by decide
example : fraction.ParseFracString ['-', '1', '0', '/', '7'] = .ok ⟨10, 7, true⟩ := by decide
example : fraction.ParseFracString [' ', '1', '2', ' ', '/', ' ', '6', ' '] = .ok ⟨2, 1, false⟩ := by
  decide
example : fraction.ParseFracString ['1', '/', '0'] = .error .zeroDenominator := by decide
example : fraction.ParseFracString ['6', '/', '-', '1', '1'] =
    .error (.msg "denominator could not be parsed to unsigned 64 bit int") := by decide
example : fraction.Fraction.String ⟨7, 3, true⟩ = ['-', '7', '/', '3'] := by decide
example : fraction.Fraction.String ⟨2, 1, false⟩ = ['2'] := by decide
example : fraction.Fraction.String ⟨0, 1, false⟩ = ['0'] := by decide
example : fraction.New (-6) (-8) = .ok ⟨3, 4, false⟩ := by decide
example : fraction.Add ⟨1, 3, false⟩ ⟨1, 6, false⟩ = .ok ⟨1, 2, false⟩ := by decide
example : fraction.Add ⟨1, 3, true⟩ ⟨1, 6, false⟩ = .ok ⟨1, 6, true⟩ := by decide
example : fraction.Multiply ⟨3, 5, true⟩ ⟨10, 9, false⟩ = .ok ⟨2, 3, true⟩ := by decide
example : fraction.Divide ⟨3, 4, false⟩ ⟨9, 8, false⟩ = .ok ⟨2, 3, false⟩ := by decide
